import Mathlib

/-!
Verification of the T-Rex shell core (main.go and src/trex_utils/piping.go)
against its natural-language specification.

The Go sources are shallowly embedded: each Go function used by a claim is
translated into an executable Lean definition operating on `List Char`
(the `data` field of `String`), with Go byte-level details (UTF-8 byte
widths in `ParseCommand`'s end-of-line check) made explicit where they
matter.  Go maps (`map[string]interface{}`) are embedded as association
lists with first-match lookup and replace-or-append insertion, which is an
exact model of a map whenever keys are unique (all lists built by the
embedded code keep keys unique).  External module invocation
(`Loader.FindModule` / `PythonExecutor.Execute`) is abstracted as an
oracle, exactly as the spec treats modules as black boxes.
-/

namespace TRex

/-! ## Character classes and basic string helpers -/

/-- The character class matched by the regexp escape `\s` in Go's RE2
(`[\t\n\f\r ]`).  Note it does not include `\v`. -/
def isRegexSpace (c : Char) : Bool :=
  c = ' ' || c = '\t' || c = '\n' || c = '\x0c' || c = '\r'

/-- Characters trimmed by Go's `strings.TrimSpace` (restricted to the ASCII
range; the Unicode space characters above 0x7f never occur in the claims'
inputs). -/
def isGoSpace (c : Char) : Bool :=
  c = ' ' || c = '\t' || c = '\n' || c = '\x0b' || c = '\x0c' || c = '\r'

/-- Model of `strings.TrimSpace` on the character list. -/
def trimSpaceL (l : List Char) : List Char :=
  ((l.dropWhile isGoSpace).reverse.dropWhile isGoSpace).reverse

/-- Model of `strings.TrimSpace`. -/
def goTrimSpace (s : String) : String :=
  ⟨trimSpaceL s.data⟩

/-- Character class `[A-Za-z_]`, the first character of a variable name in
`expandVars` and in the assignment regexp. -/
def isNameStart (c : Char) : Bool :=
  (('A' ≤ c && c ≤ 'Z') || ('a' ≤ c && c ≤ 'z')) || c = '_'

/-- Character class `[A-Za-z0-9_]`, the continuation characters of a
variable name. -/
def isNameChar (c : Char) : Bool :=
  isNameStart c || ('0' ≤ c && c ≤ '9')

/-- Decimal digit test, as used by `strconv` parsing. -/
def isDigitCh (c : Char) : Bool :=
  '0' ≤ c && c ≤ '9'

/-- Does `pre` occur as a prefix of `l`? (model of `strings.HasPrefix` on
character lists). -/
def startsWithL : List Char → List Char → Bool
  | [], _ => true
  | _ :: _, [] => false
  | p :: ps, c :: cs => p = c && startsWithL ps cs

/-- Model of `strings.Contains(s, sub)` for a one-character `sub`. -/
def containsChar (l : List Char) (c : Char) : Bool :=
  l.any (fun x => x = c)

/-- Split at the first occurrence of the character `sep`
(`strings.SplitN(s, sep, 2)` when `sep` is a single character and is
present; `none` when absent). -/
def splitOnceChar (sep : Char) : List Char → Option (List Char × List Char)
  | [] => none
  | c :: cs =>
    if c = sep then some ([], cs)
    else match splitOnceChar sep cs with
      | some (a, b) => some (c :: a, b)
      | none => none

/-- Split on every occurrence of the character `sep`
(model of `strings.Split(s, sep)` for a one-character separator). -/
def splitAllChar (sep : Char) : List Char → List (List Char)
  | [] => [[]]
  | c :: cs =>
    let rest := splitAllChar sep cs
    if c = sep then [] :: rest
    else match rest with
      | [] => [[c]]
      | a :: b => (c :: a) :: b

/-- Split at the first occurrence of the two-character separator `".."`
(`strings.SplitN(s, "..", 2)`; `none` when `".."` does not occur, which is
exactly `strings.Contains(s, "..") == false`). -/
def splitOnceDots : List Char → Option (List Char × List Char)
  | [] => none
  | '.' :: '.' :: rest => some ([], rest)
  | c :: cs =>
    match splitOnceDots cs with
    | some (a, b) => some (c :: a, b)
    | none => none

/-! ## The tokenizer: `trex_utils.ParseCommand`

Go source (src/unnamed/part_004 and part_005, identical):

    func ParseCommand(line string) []string {
        var parts []string
        var current strings.Builder
        inQuotes := false
        for i, ch := range line {
            if ch == '"' {
                inQuotes = !inQuotes
            } else if ch == ' ' && !inQuotes {
                if current.Len() > 0 {
                    parts = append(parts, current.String())
                    current.Reset()
                }
            } else {
                current.WriteRune(ch)
            }
            if i == len(line)-1 && current.Len() > 0 {
                parts = append(parts, current.String())
            }
        }
        return parts
    }

In `for i, ch := range line` the index `i` is the BYTE offset of the rune
`ch`, while `len(line)` is the byte length, so the trailing-buffer check
`i == len(line)-1` succeeds only when the final rune occupies exactly one
byte.  The embedding makes this explicit: `pos` tracks the byte offset and
each rune advances it by its UTF-8 size (`Char.utf8Size`). -/

/-- One step of the `ParseCommand` scanner.  `pos` is the byte offset of
the current rune, `total` the byte length of the whole line, `cur` the
in-progress token buffer, `inQ` the quote flag. -/
def parseCommandAux (total : Nat) : List Char → Nat → List Char → Bool → List (List Char)
  | [], _, _, _ => []
  | ch :: rest, pos, cur, inQ =>
    let (cur', inQ', emitted) :=
      if ch = '"' then (cur, !inQ, ([] : List (List Char)))
      else if ch = ' ' && !inQ then
        if cur.length > 0 then ([], inQ, [cur]) else (cur, inQ, [])
      else (cur ++ [ch], inQ, [])
    let trailing :=
      if pos = total - 1 && cur'.length > 0 then [cur'] else []
    emitted ++ trailing ++ parseCommandAux total rest (pos + ch.utf8Size) cur' inQ'

/-- Model of `trex_utils.ParseCommand`. -/
def goParseCommand (s : String) : List String :=
  (parseCommandAux (s.utf8ByteSize) s.data 0 [] false).map (fun l => ⟨l⟩)

/-! ## JSON-shaped values and Go maps -/

/-- The dynamic JSON-shaped value (`interface{}` holding the result of
`encoding/json` decoding, or a value synthesized by a pipeline head).
`fnum` carries a float64 by its source literal: no claim computes with
float values, they are only moved around, so the literal is a faithful
identity-preserving representation.  `inum` is the int64 produced by the
(dead, see C9) integer branch of the pipeline head. -/
inductive Value where
  | str (s : String)
  | fnum (lit : String)
  | inum (n : Int)
  | boolV (b : Bool)
  | null
  | list (l : List Value)
  | map (m : List (String × Value))
  deriving Repr

/-- A Go `map[string]interface{}`, embedded as an association list with
unique keys (all maps built by the embedded code keep keys unique). -/
abbrev RMap := List (String × Value)

/-- Go map read `m[k]` (first match). -/
def mapGet (m : List (String × Value)) (k : String) : Option Value :=
  match m with
  | [] => none
  | (k', v) :: rest => if k' = k then some v else mapGet rest k

/-- Go map write `m[k] = v`: replace the first binding of `k`, or append a
new one. -/
def mapSet (m : List (String × Value)) (k : String) (v : Value) : List (String × Value) :=
  match m with
  | [] => [(k, v)]
  | (k', v') :: rest => if k' = k then (k, v) :: rest else (k', v') :: mapSet rest k v

/-! ## `trex_utils.SelectFields`

Go source (src/src/trex_utils/piping.go lines 29-38):

    func SelectFields(data map[string]interface{}, fields []string) map[string]interface{} {
        result := make(map[string]interface{})
        for _, field := range fields {
            field = strings.TrimSpace(field)
            if val, exists := data[field]; exists {
                result[field] = val
            }
        }
        return result
    }
-/

/-- The loop of `SelectFields` with explicit accumulator. -/
def selectFieldsAux (data : RMap) (fields : List String) (acc : RMap) : RMap :=
  match fields with
  | [] => acc
  | f :: rest =>
    match mapGet data (goTrimSpace f) with
    | some v => selectFieldsAux data rest (mapSet acc (goTrimSpace f) v)
    | none => selectFieldsAux data rest acc

/-- Model of `trex_utils.SelectFields`. -/
def SelectFields (data : RMap) (fields : List String) : RMap :=
  selectFieldsAux data fields []

/-! ## Variable expansion: `Shell.expandVars`

Go source (src/main.go lines 460-476):

    re := regexp.MustCompile(`+"`"+`...`)
    return re.ReplaceAllStringFunc(input, func(m string) string { ... })

with the pattern matching a dollar sign followed by either a braced name
or a bare name, name class `[A-Za-z_][A-Za-z0-9_]*`.  Bound names are
replaced by their value, unbound names by the empty string, and
`ReplaceAllStringFunc` scans left to right without re-scanning replaced
text (single pass). -/

/-- The shell's variable store (`Shell.vars`, a `map[string]string`). -/
abbrev VarMap := List (String × String)

/-- Go map read on the variable store. -/
def varGet (m : VarMap) (k : String) : Option String :=
  match m with
  | [] => none
  | (k', v) :: rest => if k' = k then some v else varGet rest k

/-- Go map write on the variable store. -/
def varSet (m : VarMap) (k v : String) : VarMap :=
  match m with
  | [] => [(k, v)]
  | (k', v') :: rest => if k' = k then (k, v) :: rest else (k', v') :: varSet rest k v

/-- Go `delete(m, k)` on the variable store. -/
def varDelete (m : VarMap) (k : String) : VarMap :=
  m.filter (fun p => p.1 ≠ k)

/-- Length of `dropWhile` never exceeds the input length. -/
theorem dropWhile_len_le (p : Char → Bool) (l : List Char) :
    (l.dropWhile p).length ≤ l.length :=
  (List.dropWhile_suffix p).length_le

/-- Try to match the regexp tail right after a `$`: either a braced name
or a bare name.  Returns the name and the remainder of the input after
the match.  The braced alternative is tried first, exactly like the
regexp alternation; when the first character is a brace the bare-name
alternative can never apply (a brace is not a name-start character), and
conversely. -/
def matchVar (rest : List Char) : Option (List Char × List Char) :=
  match rest with
  | [] => none
  | c1 :: r1 =>
    if c1 = '{' then
      match r1 with
      | [] => none
      | c :: _ =>
        if isNameStart c then
          match r1.dropWhile isNameChar with
          | '}' :: r4 => some (r1.takeWhile isNameChar, r4)
          | _ => none
        else none
    else if isNameStart c1 then
      some (rest.takeWhile isNameChar, rest.dropWhile isNameChar)
    else none

theorem matchVar_length_le {rest r' : List Char} {n : List Char}
    (h : matchVar rest = some (n, r')) : r'.length ≤ rest.length := by
  match rest with
  | [] => simp [matchVar] at h
  | c1 :: r1 =>
    simp only [matchVar] at h
    split at h
    · match hr : r1 with
      | [] => simp at h
      | c :: tl =>
        simp only at h
        split at h
        · split at h
          case isTrue.h_1 r4 heq =>
            simp only [Option.some.injEq, Prod.mk.injEq] at h
            obtain ⟨-, h2⟩ := h
            subst h2
            have hle : ('}' :: r4).length ≤ (c :: tl).length := by
              rw [← heq]; exact dropWhile_len_le _ _
            simp only [List.length_cons] at hle ⊢
            omega
          case isTrue.h_2 => simp at h
        · simp at h
    · split at h
      · simp only [Option.some.injEq, Prod.mk.injEq] at h
        have := dropWhile_len_le isNameChar (c1 :: r1)
        rw [h.2] at this
        exact this
      · simp at h

/-- The scanner of `ReplaceAllStringFunc`: walk the input left to right;
at a `$` try to match a variable reference; on a match append the
replacement text verbatim (it is not re-scanned: the recursive call
continues strictly after the match) and otherwise copy the character.
The extra `fuel` argument only bounds the recursion so that it is
structural (a successful match consumes at least one character, see
`matchVar_length_le`, so fuel equal to the input length never runs
out); it never changes the result. -/
def expandLoop (vars : VarMap) : Nat → List Char → List Char
  | 0, l => l
  | _ + 1, [] => []
  | fuel + 1, c :: rest =>
    if c = '$' then
      match matchVar rest with
      | some (name, r') => ((varGet vars ⟨name⟩).getD "").data ++ expandLoop vars fuel r'
      | none => '$' :: expandLoop vars fuel rest
    else c :: expandLoop vars fuel rest

/-- Model of `Shell.expandVars`. -/
def expandVars (vars : VarMap) (input : String) : String :=
  ⟨expandLoop vars input.data.length input.data⟩

/-! ## Go `strconv` number parsing

`strconv.Atoi(s)` is `ParseInt(s, 10, 0)` on a 64-bit platform: an
optional sign followed by at least one decimal digit (base 10 forbids
underscores), with the value required to fit in a signed 64-bit integer
(on overflow `Atoi` returns an error, so the embedding yields `none`). -/

/-- Decimal value of a digit list (most significant first). -/
def digitsToNat (l : List Char) : Nat :=
  l.foldl (fun a c => a * 10 + (c.toNat - '0'.toNat)) 0

/-- Sign handling of `strconv.ParseInt`: a leading minus negates, a
leading plus is skipped. -/
def intSignSplit (l : List Char) : Bool × List Char :=
  match l with
  | '-' :: r => (true, r)
  | '+' :: r => (false, r)
  | _ => (false, l)

/-- Model of `strconv.ParseInt(s, 10, 64)`, also `strconv.Atoi` on a
64-bit platform. -/
def goParseInt10 (s : String) : Option Int :=
  let (neg, ds) := intSignSplit s.data
  if ds = [] then none
  else if ds.all isDigitCh then
    let v : Int := if neg then -(digitsToNat ds : Int) else (digitsToNat ds : Int)
    if -(2 ^ 63) ≤ v ∧ v ≤ 2 ^ 63 - 1 then some v else none
  else none

/-- Model of `strconv.Atoi`. -/
def goAtoi (s : String) : Option Int := goParseInt10 s

/-- Does `strconv.ParseFloat(s, 64)` succeed?  Modelled after the decimal
forms of Go float syntax: optional sign, then either a special word
(`inf`, `infinity`, case-insensitive; `nan` only unsigned) or a decimal
mantissa (digits with at most one dot, at least one digit overall) with
an optional exponent (`e`/`E`, optional sign, at least one digit).
Abstractions, each irrelevant to every claim proved about this function:
hexadecimal float literals and underscore-grouped literals are omitted
(they contain characters `ParseInt(s, 10, 64)` rejects, so omitting them
only shrinks the success set on strings the integer parser already
fails); the `ErrRange` overflow failure is omitted (it occurs only for
decimal magnitudes beyond roughly 1.8e308, impossible for any string the
64-bit integer parser accepts, whose magnitude is below 2^63 < 10^19).
The definition is split into the special-word test, the
mantissa/exponent syntax test, and the sign handling. -/
def floatSpecialOk (signed : Bool) (l1 : List Char) : Bool :=
  let low := l1.map Char.toLower
  (low = "inf".data || low = "infinity".data) || (!signed && low = "nan".data)

def floatMantissaExpOk (l1 : List Char) : Bool :=
  let m1 := l1.takeWhile isDigitCh
  let r1 := l1.dropWhile isDigitCh
  let (m2, r2) :=
    match r1 with
    | '.' :: rd => (rd.takeWhile isDigitCh, rd.dropWhile isDigitCh)
    | _ => (([] : List Char), r1)
  if m1 = [] && m2 = [] then false
  else
    match r2 with
    | [] => true
    | e :: r3 =>
      if e = 'e' || e = 'E' then
        let r4 :=
          match r3 with
          | '+' :: rr => rr
          | '-' :: rr => rr
          | _ => r3
        r4 ≠ [] && r4.all isDigitCh
      else false

/-- Sign handling of `strconv.ParseFloat`: either sign is recorded and
skipped. -/
def floatSignSplit (l : List Char) : Bool × List Char :=
  match l with
  | '+' :: r => (true, r)
  | '-' :: r => (true, r)
  | _ => (false, l)

def goParseFloatOk (s : String) : Bool :=
  match s.data with
  | [] => false
  | l =>
    let (signed, l1) := floatSignSplit l
    floatSpecialOk signed l1 || floatMantissaExpOk l1

/-! ## `Shell.handleForLoop` range expansion (src/main.go lines 555-585) -/

/-- Ascending counted loop: `n` iterations of
`values = append(values, strconv.Itoa(i)); i++` starting at `a`. -/
def buildUpN : Nat → Int → List String
  | 0, _ => []
  | n + 1, a => toString a :: buildUpN n (a + 1)

/-- Descending counted loop: `n` iterations of
`values = append(values, strconv.Itoa(i)); i--` starting at `a`. -/
def buildDownN : Nat → Int → List String
  | 0, _ => []
  | n + 1, a => toString a :: buildDownN n (a - 1)

/-- Go `int` increment on a 64-bit platform: `i++` wraps
9223372036854775807 (the largest int64) around to -9223372036854775808. -/
def wrapInc (i : Int) : Int :=
  if i = 9223372036854775807 then -9223372036854775808 else i + 1

/-- Go `int` decrement: `i--` wraps -9223372036854775808 (the smallest
int64) around to 9223372036854775807. -/
def wrapDec (i : Int) : Int :=
  if i = -9223372036854775808 then 9223372036854775807 else i - 1

/-- One evaluation of the ascending range loop
`for i := start; i <= end; i++ { values = append(values, strconv.Itoa(i)) }`
under Go int64 arithmetic, with `fuel` bounding the number of loop
iterations examined; `none` reports that the fuel ran out with the loop
still running.  With fuel 18446744073709551616 (the int64 state count
2^64) this is exact: a terminating run of the loop makes at most
2^64 - 1 iterations (see `loopUpF_term`), so fuel exhaustion happens
exactly when the loop never terminates — which the wrap-around makes
possible: when `end` is the largest int64 the condition `i <= end`
holds for every int64 value and the loop runs forever. -/
def loopUpF : Nat → Int → Int → Option (List String)
  | 0, i, b => if i ≤ b then none else some []
  | fuel + 1, i, b =>
    if i ≤ b then (loopUpF fuel (wrapInc i) b).map (fun vs => toString i :: vs)
    else some []

/-- One evaluation of the descending range loop
`for i := start; i >= end; i--` under Go int64 arithmetic, with the
same fuel discipline as `loopUpF`; when `end` is the smallest int64 the
condition `i >= end` always holds and the loop runs forever. -/
def loopDownF : Nat → Int → Int → Option (List String)
  | 0, i, b => if b ≤ i then none else some []
  | fuel + 1, i, b =>
    if b ≤ i then (loopDownF fuel (wrapDec i) b).map (fun vs => toString i :: vs)
    else some []

/-- Ascending loop of the range builder: `some` of the produced values
when the loop terminates, `none` when it never does (`b` the largest
int64). -/
def buildUp (a b : Int) : Option (List String) := loopUpF 18446744073709551616 a b

/-- Descending loop of the range builder: `some` of the produced values
when the loop terminates, `none` when it never does (`b` the smallest
int64). -/
def buildDown (a b : Int) : Option (List String) := loopDownF 18446744073709551616 a b

/-- Single-integer loop of the range builder, `for i := 0; i < n; i++`:
the body runs `n` times starting at zero. -/
def buildCount (n : Int) : List String := buildUpN n.toNat 0

/-- Outcome of expanding a forloop range expression: an error, a value
list, or divergence of the range loop itself (the enclosing Go function
never returns). -/
inductive RangeResult where
  | err (e : String)
  | values (vs : List String)
  | hang

/-- Model of the range-expression dispatch of `handleForLoop`
(src/main.go lines 555-585): a `..` split (tried whenever `..` occurs),
then a comma list, then a single integer, otherwise an error.  The two
`strconv.Atoi` calls of the `..` branch must both succeed or the branch
fails with "invalid range"; a diverging range loop makes the whole
dispatch `hang`.  (The single-integer loop `for i := 0; i < n; i++`
cannot diverge: its strict bound keeps the counter from wrapping.) -/
def parseRangeValues (rangeExpr : String) : RangeResult :=
  match splitOnceDots rangeExpr.data with
  | some (p, q) =>
    match goAtoi ⟨p⟩, goAtoi ⟨q⟩ with
    | some a, some b =>
      if a ≤ b then
        match buildUp a b with
        | some vs => .values vs
        | none => .hang
      else
        match buildDown a b with
        | some vs => .values vs
        | none => .hang
    | _, _ => .err ("invalid range: " ++ rangeExpr)
  | none =>
    if containsChar rangeExpr.data ',' then
      .values ((splitAllChar ',' rangeExpr.data).map (fun l => goTrimSpace ⟨l⟩))
    else
      match goAtoi rangeExpr with
      | some n => .values (buildCount n)
      | none => .err ("invalid range expression: " ++ rangeExpr)

/-! ## Loop body execution (shared verbatim by `handleForLoop` lines
586-607 and `handleForeach` lines 643-662 of src/main.go)

Each sub-command of the body is executed through `Shell.executeCommand`,
which can itself mutate the variable store and fail; it is abstracted as
an oracle `CmdExec` taking the current store and the (already
variable-expanded) command line and returning the new store plus an
optional error.  The Go loop binds the loop variable, runs the expanded
sub-commands in order, and on the first sub-command error returns
immediately — without reaching the `delete(s.vars, varName)` that only
follows the loop. -/

/-- Oracle for `Shell.executeCommand` as invoked from a loop body. -/
abbrev CmdExec := VarMap → String → VarMap × Option String

/-- Inner loop: run each sub-command (expanding variables immediately
before execution), stopping at the first error. -/
def runCmds (exec : CmdExec) (vars : VarMap) : List String → VarMap × Option String
  | [] => (vars, none)
  | c :: rest =>
    let (v', e) := exec vars (expandVars vars c)
    match e with
    | some err => (v', some err)
    | none => runCmds exec v' rest

/-- Outer loop: for each generated value, bind the loop variable then run
the body; a sub-command error aborts the whole loop immediately. -/
def runIterations (exec : CmdExec) (varName : String) (cmds : List String)
    (vars : VarMap) : List String → VarMap × Option String
  | [] => (vars, none)
  | v :: rest =>
    let (v1, e) := runCmds exec (varSet vars varName v) cmds
    match e with
    | some err => (v1, some err)
    | none => runIterations exec varName cmds v1 rest

/-- The complete loop execution: iterate, and only when every iteration
succeeded delete the loop variable (the early `return true, err` of the
Go code skips the `delete`). -/
def runLoop (exec : CmdExec) (vars : VarMap) (varName : String)
    (values : List String) (cmds : List String) : VarMap × Option String :=
  match runIterations exec varName cmds vars values with
  | (v, some err) => (v, some err)
  | (v, none) => (varDelete v varName, none)

/-- Body splitting: `strings.Split(body, ";")`, each part trimmed, blank
parts dropped. -/
def splitBodyCmds (body : String) : List String :=
  ((splitAllChar ';' body.data).map (fun l => goTrimSpace ⟨l⟩)).filter (fun s => s ≠ "")

/-- Model of `handleForLoop` after a successful pattern match: expand the
range expression, fail before any iteration on an invalid range (the
variable store is untouched), else run the loop.  `none` is the run
that never returns because the range loop diverges. -/
def handleForLoopCore (exec : CmdExec) (vars : VarMap)
    (rangeExpr varName body : String) : Option (VarMap × Option String) :=
  match parseRangeValues rangeExpr with
  | .err e => some (vars, some e)
  | .hang => none
  | .values values => some (runLoop exec vars varName values (splitBodyCmds body))

/-! ## `Shell.handleForeach` list expansion (src/main.go lines 619-641) -/

/-- Trim cutset used for the single-token foreach list form:
`strings.Trim(listExpr, " \t\n\r\"'")`. -/
def isForeachCut (c : Char) : Bool :=
  c = ' ' || c = '\t' || c = '\n' || c = '\r' || c = '"' || c = '\''

/-- Model of `strings.Trim(s, " \t\n\r\"'")`. -/
def trimForeachCut (s : String) : String :=
  ⟨((s.data.dropWhile isForeachCut).reverse.dropWhile isForeachCut).reverse⟩

/-- Strip one matching pair of surrounding double or single quotes
(lines 633-635 of src/main.go). -/
def stripQuotesPair (p : String) : String :=
  let l := p.data
  if (startsWithL ['"'] l && l.getLast? = some '"') ||
     (startsWithL ['\''] l && l.getLast? = some '\'') then ⟨(l.drop 1).dropLast⟩
  else p

/-- Model of the foreach list-expression expansion: bracketed form
(tokenized), pipe-delimited form (split on the pipe character, items
trimmed and unquoted), else a single item with surrounding
whitespace/quote characters trimmed.  The argument is the raw capture
`m[1]`; the function performs the `strings.TrimSpace` the Go code applies
first. -/
def foreachItems (m1 : String) : List String :=
  let listExpr := goTrimSpace m1
  let l := listExpr.data
  if startsWithL ['['] l && l.getLast? = some ']' then
    goParseCommand (goTrimSpace ⟨(l.drop 1).dropLast⟩)
  else if containsChar l '|' then
    (splitAllChar '|' l).map (fun p => stripQuotesPair (goTrimSpace ⟨p⟩))
  else
    [trimForeachCut listExpr]

/-- Model of `handleForeach` after a successful pattern match. -/
def handleForeachCore (exec : CmdExec) (vars : VarMap)
    (listRaw varName body : String) : VarMap × Option String :=
  runLoop exec vars varName (foreachItems listRaw) (splitBodyCmds body)

/-! ## Whole-line pattern matching

The Go code recognizes loops and assignments with `regexp` patterns.
The embeddings below are direct deterministic implementations of those
patterns under RE2's leftmost-first (backtracking-equivalent) submatch
semantics.  Wherever a greedy quantifier is followed by a literal that
its own character class cannot match (for example whitespace followed by
a letter), maximal munch is the only possible outcome and the embedding
just takes the maximal run; the two genuinely ambiguous spots — the lazy
list-expression group of foreach and the whitespace before the value
group of the assignment pattern — are implemented as explicit priority
searches in the engine's order. -/

/-- Match `\s+` (at least one regexp whitespace character), returning the
remainder after the maximal run. -/
def skipWs1 (l : List Char) : Option (List Char) :=
  match l with
  | c :: _ => if isRegexSpace c then some (l.dropWhile isRegexSpace) else none
  | [] => none

/-- Match `[A-Za-z_][A-Za-z0-9_]*` greedily, returning the name and the
remainder. -/
def parseVarName (l : List Char) : Option (List Char × List Char) :=
  match l with
  | c :: _ => if isNameStart c then some (l.takeWhile isNameChar, l.dropWhile isNameChar) else none
  | [] => none

/-- Drop the trailing run of characters satisfying `p`. -/
def dropLastWhile (p : Char → Bool) (l : List Char) : List Char :=
  (l.reverse.dropWhile p).reverse

/-- Match the regexp tail `(.*)\x7d\s*$` under the s-flag: strip trailing
regexp whitespace and require the last remaining character to be a
closing brace; the greedy dot group captures everything before it. -/
def closeBrace (rem : List Char) : Option (List Char) :=
  let t := dropLastWhile isRegexSpace rem
  match t.getLast? with
  | some '}' => some t.dropLast
  | _ => none

/-- Model of the `handleForLoop` pattern
`(?s)^\s*forloop\s+([^\s]+)\s+as\s+\$([A-Za-z_][A-Za-z0-9_]*)\s+do\s*\x7b(.*)\x7d\s*$`
(src/main.go line 546), returning the captures (range expression,
variable name, body), applied after the anchored leading-whitespace
skip.  Every quantifier here is deterministic: the non-whitespace group
must end at the first whitespace character, and each whitespace run
must end at the following literal. -/
def forloopMatchAt (l : List Char) : Option (String × String × String) :=
  if startsWithL "forloop".data l then
    match skipWs1 (l.drop 7) with
    | none => none
    | some l1 =>
      let g1 := l1.takeWhile (fun c => !isRegexSpace c)
      let l2 := l1.dropWhile (fun c => !isRegexSpace c)
      if g1 = [] then none
      else
        match skipWs1 l2 with
        | none => none
        | some l3 =>
          if startsWithL "as".data l3 then
            match skipWs1 (l3.drop 2) with
            | none => none
            | some l4 =>
              match l4 with
              | '$' :: l5 =>
                match parseVarName l5 with
                | none => none
                | some (name, l6) =>
                  match skipWs1 l6 with
                  | none => none
                  | some l7 =>
                    if startsWithL "do".data l7 then
                      match (l7.drop 2).dropWhile isRegexSpace with
                      | '{' :: l8 =>
                        match closeBrace l8 with
                        | some body => some (⟨g1⟩, ⟨name⟩, ⟨body⟩)
                        | none => none
                      | _ => none
                    else none
              | _ => none
          else none
  else none

/-- Model of the `handleForLoop` whole-line pattern: anchor, leading
whitespace, then the keyworded body. -/
def forloopMatch (line : String) : Option (String × String × String) :=
  forloopMatchAt (line.data.dropWhile isRegexSpace)

/-- The fixed suffix of the foreach pattern after the lazy group:
`\s+as\s+\$([A-Za-z_][A-Za-z0-9_]*)\s+do\s*\x7b(.*)\x7d\s*$`, returning
(variable name, body). -/
def foreachSepCheck (l : List Char) : Option (String × String) :=
  match skipWs1 l with
  | none => none
  | some l1 =>
    if startsWithL "as".data l1 then
      match skipWs1 (l1.drop 2) with
      | none => none
      | some l2 =>
        match l2 with
        | '$' :: l3 =>
          match parseVarName l3 with
          | none => none
          | some (name, l4) =>
            match skipWs1 l4 with
            | none => none
            | some l5 =>
              if startsWithL "do".data l5 then
                match (l5.drop 2).dropWhile isRegexSpace with
                | '{' :: l6 =>
                  match closeBrace l6 with
                  | some body => some (⟨name⟩, ⟨body⟩)
                  | none => none
                | _ => none
              else none
        | _ => none
    else none

/-- The search for the two ambiguous quantifiers of the foreach pattern:
the greedy `\s+` after the keyword prefers the maximal whitespace run
(descending `j`), and within each the lazy `(.+?)` list-expression group
prefers the shortest nonempty capture (ascending `i`); the first success
in that priority order is the leftmost-first match. -/
def foreachSearch (r : List Char) : Option (String × String × String) :=
  let wsMax := (r.takeWhile isRegexSpace).length
  ((List.range wsMax).map (fun k => wsMax - k)).findSome? (fun j =>
    let rj := r.drop j
    ((List.range rj.length).map (fun i => i + 1)).findSome? (fun i =>
      match foreachSepCheck (rj.drop i) with
      | some (v, b) => some (⟨rj.take i⟩, v, b)
      | none => none))

/-- Model of the `handleForeach` pattern
`(?s)^\s*foreach\s+(.+?)\s+as\s+\$([A-Za-z_][A-Za-z0-9_]*)\s+do\s*\x7b(.*)\x7d\s*$`
(src/main.go line 613), returning the captures (list expression,
variable name, body). -/
def foreachMatchAt (l : List Char) : Option (String × String × String) :=
  if startsWithL "foreach".data l then foreachSearch (l.drop 7) else none

/-- Model of the `handleForeach` whole-line pattern: anchor, leading
whitespace, then the keyworded body. -/
def foreachMatch (line : String) : Option (String × String × String) :=
  foreachMatchAt (line.data.dropWhile isRegexSpace)

/-! ## Assignment recognition and the per-line dispatcher
(`Shell.executeCommand`, src/main.go lines 184-284) -/

/-- Match `([A-Za-z_][A-Za-z0-9_]*)\s*=\s*(.+)$` (no s-flag: the dot does
not match a newline, and the anchor is the end of the text).  After the
equals sign the greedy `\s*` yields to the mandatory nonempty `(.+)`:
the engine takes the longest whitespace run that still leaves a nonempty
newline-free remainder, scanning `j` downward. -/
def assignNameEq (l : List Char) : Option (String × String) :=
  match parseVarName l with
  | none => none
  | some (name, l1) =>
    match l1.dropWhile isRegexSpace with
    | '=' :: l3 =>
      let wsn := (l3.takeWhile isRegexSpace).length
      match ((List.range (wsn + 1)).map (fun k => wsn - k)).findSome? (fun j =>
          let rem := l3.drop j
          if rem ≠ [] && !containsChar rem '\n' then some rem else none) with
      | some rem => some (⟨name⟩, ⟨rem⟩)
      | none => none
    | _ => none

/-- Model of the assignment shorthand pattern
`^\s*(?:export\s+)?([A-Za-z_][A-Za-z0-9_]*)\s*=\s*(.+)$`
(src/main.go line 217), returning (name, raw value capture).  The
optional `export` prefix is tried first and abandoned if the rest of the
pattern fails there, exactly as backtracking does. -/
def assignReMatch (line : String) : Option (String × String) :=
  let l := line.data.dropWhile isRegexSpace
  let attempt :=
    if startsWithL "export".data l then
      match skipWs1 (l.drop 6) with
      | some l1 => assignNameEq l1
      | none => none
    else none
  match attempt with
  | some r => some r
  | none => assignNameEq l

/-- Which branch of `Shell.executeCommand` claims a line. -/
inductive Dispatch where
  | file
  | assignSetLet
  | assignEq (name rawValue : String)
  | assignDollar
  | forloopH (rangeExpr varName body : String)
  | foreachH (listExpr varName body : String)
  | pipeline
  | moduleCall
  | empty
  deriving DecidableEq

/-- The decision sequence of `Shell.executeCommand` after the assignment
checks: forloop pattern, then foreach pattern, then pipe detection
(`trex_utils.HasPipe`, a substring test for the pipe character), then
module dispatch. -/
def dispatchAfterAssign (line : String) : Dispatch :=
  match forloopMatch line with
  | some (r, v, b) => .forloopH r v b
  | none =>
    match foreachMatch line with
    | some (le, v, b) => .foreachH le v b
    | none =>
      if containsChar line.data '|' then .pipeline
      else if goParseCommand line = [] then .empty
      else .moduleCall

/-- Model of the full decision sequence of `Shell.executeCommand`
(src/main.go lines 184-284): existing-file check (abstracted as the
boolean `isFile`), the three assignment forms (only examined when the
tokenization is non-empty), then loops, pipes and module dispatch. -/
def executeCommandDispatch (isFile : Bool) (line : String) : Dispatch :=
  if isFile then .file
  else
    match goParseCommand line with
    | p0 :: rest =>
      if (p0 = "set" || p0 = "let") && rest.length + 1 ≥ 3 then .assignSetLet
      else
        match assignReMatch line with
        | some (n, v) => .assignEq n v
        | none =>
          if startsWithL ['$'] p0.data && rest.length + 1 ≥ 2 then .assignDollar
          else dispatchAfterAssign line
    | [] => dispatchAfterAssign line

/-! ## The pipeline evaluator (`Shell.executePipeline`, src/main.go
lines 288-457)

Module resolution and execution are abstracted as an oracle: `find`
models `Loader.FindModule` (returning `none` both on error and on an
empty path, the two conditions the Go code folds together) and `run`
models `PythonExecutor.Execute` (an error, a nil result, or a JSON
object).  Rendering (`printResult`) happens in the Go function only on
the paths the `rendered` outcome stands for; the `failed` outcome is the
early `return err` before any rendering, and `silent` the early
`return nil`. -/

structure ModOracle where
  find : String → Option String
  run : List String → List String → Except String (Option RMap)

/-- Model of `Shell.executeModule` (src/main.go lines 479-495): resolve
the first word, report `os.ErrNotExist` when resolution fails, else run
the module. -/
def executeModuleM (o : ModOracle) (cmdA : List String) (args : List String) :
    Except String (Option RMap) :=
  match cmdA with
  | [] => .error "file does not exist"
  | c :: _ =>
    match o.find c with
    | none => .error "file does not exist"
    | some _ => o.run cmdA args

/-! Go `fmt.Sprintf("%v", x)` rendering for the dynamic values a list
element can hold (defined mutually with its list and pair helpers).
Floats are represented by their literal (no claim evaluates one); nested
composites use Go's bracketed forms, never inspected by a claim. -/
mutual

def valueShowGo : Value → String
  | .str s => s
  | .fnum lit => lit
  | .inum n => toString n
  | .boolV b => cond b "true" "false"
  | .null => "<nil>"
  | .list l => "[" ++ String.intercalate " " (valueShowGoList l) ++ "]"
  | .map m => "map[" ++ String.intercalate " " (valueShowGoPairs m) ++ "]"

def valueShowGoList : List Value → List String
  | [] => []
  | v :: r => valueShowGo v :: valueShowGoList r

def valueShowGoPairs : List (String × Value) → List String
  | [] => []
  | (k, v) :: r => (k ++ ":" ++ valueShowGo v) :: valueShowGoPairs r

end

/-! Simple JSON rendering used for the `json.Marshal` fallback argument
(maps and other composites).  String escaping is omitted; no claim
inspects this text. -/
mutual

def jsonShow : Value → String
  | .str s => "\"" ++ s ++ "\""
  | .fnum lit => lit
  | .inum n => toString n
  | .boolV b => cond b "true" "false"
  | .null => "null"
  | .list l => "[" ++ String.intercalate "," (jsonShowList l) ++ "]"
  | .map m => "\x7b" ++ String.intercalate "," (jsonShowPairs m) ++ "\x7d"

def jsonShowList : List Value → List String
  | [] => []
  | v :: r => jsonShow v :: jsonShowList r

def jsonShowPairs : List (String × Value) → List String
  | [] => []
  | (k, v) :: r => ("\"" ++ k ++ "\":" ++ jsonShow v) :: jsonShowPairs r

end

/-- The projection of the previous stage's `output` into call arguments
for a piped module (src/main.go lines 413-438): absent or nil output
adds nothing; a string passes through; numbers and booleans are
stringified; a list contributes one stringified argument per element; a
mapping is serialized to one JSON argument. -/
def projectOutput (out : Option Value) : List String :=
  match out with
  | none => []
  | some .null => []
  | some (.str s) => [s]
  | some (.fnum lit) => [lit]
  | some (.inum n) => [toString n]
  | some (.boolV b) => [cond b "true" "false"]
  | some (.list l) => l.map valueShowGo
  | some (.map m) => [jsonShow (.map m)]

/-- Outcome of a pipeline evaluation: a rendered result, a silent stop
(`return nil` with nothing printed), or a propagated error (also nothing
printed). -/
inductive PipeOutcome where
  | rendered (r : RMap)
  | silent
  | failed (e : String)

/-- The `select` pipe stage (src/main.go lines 391-394): when the current
output is a mapping, narrow it with `SelectFields`; any other shape of
output — or no output at all — leaves the whole result untouched. -/
def selectStageApply (result : RMap) (args : List String) : RMap :=
  match mapGet result "output" with
  | some (.map m) => mapSet result "output" (.map (SelectFields m args))
  | _ => result

/-- The pipe-stage loop (src/main.go lines 376-452): blank stages are
skipped; `select`, `pp` and `tt` mutate the threaded result; any other
first token must resolve to a module or the whole pipeline fails with
the unknown-operator error; a resolved module is invoked with its own
arguments followed by the projected previous output, replacing the
threaded result (nil result stops the pipeline silently). -/
def procStages (o : ModOracle) (result : RMap) : List String → PipeOutcome
  | [] => .rendered result
  | pipe :: restStages =>
    let p := goTrimSpace pipe
    if p = "" then procStages o result restStages
    else
      match goParseCommand p with
      | [] => procStages o result restStages
      | op :: args =>
        if op = "select" then procStages o (selectStageApply result args) restStages
        else if op = "pp" then procStages o (mapSet result "__pretty_print" (.boolV true)) restStages
        else if op = "tt" then procStages o (mapSet result "__table_print" (.boolV true)) restStages
        else
          match o.find op with
          | none => .failed ("unknown pipeline operator or module: " ++ op)
          | some _ =>
            let callArgs := args ++ projectOutput (mapGet result "output")
            match executeModuleM o (goParseCommand p) callArgs with
            | .error e => .failed e
            | .ok none => .silent
            | .ok (some r') => procStages o r' restStages

/-- The five head shapes of `executePipeline`, in the order the if/else
chain of src/main.go lines 301-362 tests them. -/
inductive HeadKind where
  | arrayLit
  | quoteLit
  | floatLit
  | intLit
  | command
  deriving DecidableEq

/-- Guard of the array-literal head branch: bracketed first and last
character. -/
def isArrayHead (s : String) : Bool :=
  startsWithL ['['] s.data && s.data.getLast? = some ']'

/-- Guard of the quoted-literal head branch: a matching pair of double
or single quotes around the head. -/
def isQuoteHead (s : String) : Bool :=
  (startsWithL ['"'] s.data && s.data.getLast? = some '"') ||
  (startsWithL ['\''] s.data && s.data.getLast? = some '\'')

/-- Which branch of the pipeline-head if/else chain fires for a given
(already trimmed) head text. -/
def headKind (firstPart : String) : HeadKind :=
  if isArrayHead firstPart then .arrayLit
  else if isQuoteHead firstPart then .quoteLit
  else if goParseFloatOk firstPart then .floatLit
  else if (goParseInt10 firstPart).isSome then .intLit
  else .command

/-- The pipeline head (src/main.go lines 296-362): array literal, quoted
string literal, float literal, integer literal, else a regular command
dispatched to a module with variables expanded.  In Go, a
single-character bracket or quote head would slice out of range and
panic; the embedding returns the empty inner text on that untaken corner
(no claim reaches it). -/
def evalHeadResult (vars : VarMap) (o : ModOracle) (firstPart : String) :
    Except String (Option RMap) :=
  let l := firstPart.data
  match headKind firstPart with
  | .arrayLit =>
    .ok (some [("output", .list ((goParseCommand (goTrimSpace ⟨(l.drop 1).dropLast⟩)).map .str)),
               ("status", .str "success")])
  | .quoteLit =>
    .ok (some [("output", .str ⟨(l.drop 1).dropLast⟩), ("status", .str "success")])
  | .floatLit =>
    .ok (some [("output", .fnum firstPart), ("status", .str "success")])
  | .intLit =>
    .ok (some [("output", .inum ((goParseInt10 firstPart).getD 0)), ("status", .str "success")])
  | .command =>
    match goParseCommand firstPart with
    | [] => .ok none
    | c0 :: args0 =>
      let args := args0.map (expandVars vars)
      let cmd := expandVars vars c0
      executeModuleM o ((splitAllChar ' ' cmd.data).map (fun x => (⟨x⟩ : String))) args

/-- Model of `Shell.executePipeline`: split at the first pipe character,
evaluate the head, and when a tail exists split it on every pipe
character and run the stage loop; otherwise render the head result
directly. -/
def execPipeline (vars : VarMap) (o : ModOracle) (line : String) : PipeOutcome :=
  let (first, restOpt) :=
    match splitOnceChar '|' line.data with
    | some (a, b) => ((⟨a⟩ : String), some (⟨b⟩ : String))
    | none => (line, none)
  let firstPart := goTrimSpace first
  if firstPart = "" then .silent
  else
    match evalHeadResult vars o firstPart with
    | .error e => .failed e
    | .ok none => .silent
    | .ok (some result) =>
      match restOpt with
      | none => .rendered result
      | some rest =>
        procStages o result ((splitAllChar '|' (goTrimSpace rest).data).map (fun x => (⟨x⟩ : String)))

/-! ## Shared helper lemmas -/

theorem takeWhile_all_eq_self {p : Char → Bool} :
    ∀ {l : List Char}, l.all p = true → l.takeWhile p = l := by
  intro l h
  induction l with
  | nil => rfl
  | cons c rest ih =>
    simp only [List.all_cons, Bool.and_eq_true] at h
    simp [List.takeWhile_cons, h.1, ih h.2]

theorem dropWhile_all_eq_nil {p : Char → Bool} :
    ∀ {l : List Char}, l.all p = true → l.dropWhile p = [] := by
  intro l h
  induction l with
  | nil => rfl
  | cons c rest ih =>
    simp only [List.all_cons, Bool.and_eq_true] at h
    simp [List.dropWhile_cons, h.1, ih h.2]

theorem mapGet_mapSet (m : RMap) (k : String) (v : Value) (k' : String) :
    mapGet (mapSet m k v) k' = if k = k' then some v else mapGet m k' := by
  induction m with
  | nil =>
    by_cases h : k = k' <;> simp [mapSet, mapGet, h]
  | cons p rest ih =>
    obtain ⟨a, b⟩ := p
    by_cases ha : a = k
    · subst ha
      by_cases h : a = k' <;> simp [mapSet, mapGet, h]
    · by_cases h : a = k'
      · subst h
        have hk : ¬ k = a := fun hh => ha hh.symm
        simp [mapSet, mapGet, ha, hk]
      · simp [mapSet, mapGet, ha, h, ih]

theorem varGet_varDelete (m : VarMap) (k : String) :
    varGet (varDelete m k) k = none := by
  induction m with
  | nil => rfl
  | cons p rest ih =>
    obtain ⟨a, b⟩ := p
    by_cases h : a = k
    · subst h
      simpa [varDelete, List.filter] using ih
    · simpa [varDelete, List.filter, h, varGet] using ih


theorem floatMantissaExpOk_digits {l1 : List Char} (hne : l1 ≠ [])
    (hall : l1.all isDigitCh = true) : floatMantissaExpOk l1 = true := by
  unfold floatMantissaExpOk
  rw [takeWhile_all_eq_self hall, dropWhile_all_eq_nil hall]
  simp [hne]


theorem intSignSplit_no_sign {c : Char} {rest : List Char}
    (h1 : c ≠ '-') (h2 : c ≠ '+') : intSignSplit (c :: rest) = (false, c :: rest) := by
  unfold intSignSplit
  split
  · rename_i heq; cases heq; exact absurd rfl h1
  · rename_i heq; cases heq; exact absurd rfl h2
  · rfl

theorem floatSignSplit_no_sign {c : Char} {rest : List Char}
    (h1 : c ≠ '-') (h2 : c ≠ '+') : floatSignSplit (c :: rest) = (false, c :: rest) := by
  unfold floatSignSplit
  split
  · rename_i heq; cases heq; exact absurd rfl h2
  · rename_i heq; cases heq; exact absurd rfl h1
  · rfl

/-- Any string accepted by the base-10 64-bit integer parser is accepted
by the float parser: an integer's text is an optional sign followed by a
nonempty digit run, which is exactly a decimal mantissa with no dot and
no exponent. -/
theorem goParseFloatOk_of_goParseInt10 {s : String} {n : Int}
    (h : goParseInt10 s = some n) : goParseFloatOk s = true := by
  have key : ∀ (neg : Bool) (ds : List Char),
      (if ds = [] then (none : Option Int)
       else if ds.all isDigitCh then
         let v : Int := if neg then -(digitsToNat ds : Int) else (digitsToNat ds : Int)
         if -(2 ^ 63) ≤ v ∧ v ≤ 2 ^ 63 - 1 then some v else none
       else none) = some n →
      ds ≠ [] ∧ ds.all isDigitCh = true := by
    intro neg ds hh
    split at hh
    · simp at hh
    · split at hh
      · exact ⟨by assumption, by assumption⟩
      · simp at hh
  unfold goParseInt10 at h
  unfold goParseFloatOk
  match hs : s.data with
  | [] => rw [hs] at h; simp [intSignSplit] at h
  | c :: rest =>
    rw [hs] at h
    by_cases hminus : c = '-'
    · subst hminus
      rw [show intSignSplit ('-' :: rest) = (true, rest) from rfl] at h
      obtain ⟨hne, hall⟩ := key true rest h
      have hm := floatMantissaExpOk_digits hne hall
      show (floatSpecialOk true rest || floatMantissaExpOk rest) = true
      simp [hm]
    · by_cases hplus : c = '+'
      · subst hplus
        rw [show intSignSplit ('+' :: rest) = (false, rest) from rfl] at h
        obtain ⟨hne, hall⟩ := key false rest h
        have hm := floatMantissaExpOk_digits hne hall
        show (floatSpecialOk true rest || floatMantissaExpOk rest) = true
        simp [hm]
      · rw [intSignSplit_no_sign hminus hplus] at h
        obtain ⟨hne, hall⟩ := key false (c :: rest) h
        have hm := floatMantissaExpOk_digits hne hall
        show (match floatSignSplit (c :: rest) with
          | (signed, l1) => floatSpecialOk signed l1 || floatMantissaExpOk l1) = true
        rw [floatSignSplit_no_sign hminus hplus]
        simp [hm]

/-! ## Claim theorems -/

/-- C9: in the pipeline head evaluator, whenever `strconv.ParseFloat`
fails on the head text, `strconv.ParseInt(s, 10, 64)` fails as well, so
the integer-literal branch of the if/else chain (src/main.go lines
331-335) can never be selected and every numeric head takes the
float-typed branch. -/
theorem claim9_int_branch_unreachable :
    ∀ s : String, (headKind s == HeadKind.intLit) = false := by
  intro s
  unfold headKind
  split
  · rfl
  · split
    · rfl
    · split
      · rfl
      · split
        · rename_i h3 h4
          cases hsome : goParseInt10 s with
          | none => rw [hsome] at h4; simp at h4
          | some n => exact absurd (goParseFloatOk_of_goParseInt10 hsome) h3
        · rfl

theorem selectFieldsAux_spec (data : RMap) :
    ∀ (fields : List String) (acc : RMap) (k : String) (v : Value),
      mapGet (selectFieldsAux data fields acc) k = some v →
      mapGet acc k = some v ∨
        (mapGet data k = some v ∧ ∃ f, f ∈ fields ∧ goTrimSpace f = k) := by
  intro fields
  induction fields with
  | nil =>
    intro acc k v h
    exact Or.inl h
  | cons f rest ih =>
    intro acc k v h
    unfold selectFieldsAux at h
    cases hget : mapGet data (goTrimSpace f) with
    | some w =>
      rw [hget] at h
      rcases ih (mapSet acc (goTrimSpace f) w) k v h with hacc | ⟨hdata, g, hg, hgtrim⟩
      · rw [mapGet_mapSet] at hacc
        by_cases hk : goTrimSpace f = k
        · subst hk
          rw [if_pos rfl] at hacc
          injection hacc with hwv
          subst hwv
          exact Or.inr ⟨hget, f, List.mem_cons_self f rest, rfl⟩
        · rw [if_neg hk] at hacc
          exact Or.inl hacc
      · exact Or.inr ⟨hdata, g, List.mem_cons_of_mem f hg, hgtrim⟩
    | none =>
      rw [hget] at h
      rcases ih acc k v h with hacc | ⟨hdata, g, hg, hgtrim⟩
      · exact Or.inl hacc
      · exact Or.inr ⟨hdata, g, List.mem_cons_of_mem f hg, hgtrim⟩

/-- C10: `SelectFields` only ever produces a sub-mapping of its input:
every key it returns is the whitespace-trimmed form of a requested
field, that key exists in the input mapping, and the returned value is
the input's value for that key, unchanged. -/
theorem claim10_selectFields_submap
    (data : RMap) (fields : List String) (k : String) (v : Value)
    (h : mapGet (SelectFields data fields) k = some v) :
    mapGet data k = some v ∧ ∃ f, f ∈ fields ∧ goTrimSpace f = k := by
  rcases selectFieldsAux_spec data fields [] k v h with hacc | hres
  · simp [mapGet] at hacc
  · exact hres

/-- Witness for C10 at a concrete input: selecting the field " a " (note
the surrounding whitespace) from the mapping with key a. -/
theorem claim10_selectFields_submap_witness :
    mapGet [("a", Value.str "1")] "a" = some (Value.str "1") ∧
      ∃ f, f ∈ [" a "] ∧ goTrimSpace f = "a" :=
  claim10_selectFields_submap [("a", Value.str "1")] [" a "] "a" (Value.str "1") rfl

/-- A nonempty name in the class `[A-Za-z_][A-Za-z0-9_]*`. -/
def isVarNameB (n : String) : Bool :=
  match n.data with
  | [] => false
  | c :: _ => isNameStart c && n.data.all isNameChar

theorem expandLoop_fuel_nil (vars : VarMap) (fuel : Nat) :
    expandLoop vars fuel [] = [] := by
  cases fuel <;> rfl

theorem expandLoop_dollar_name (vars : VarMap) (fuel : Nat) {l nm : List Char}
    (hmv : matchVar l = some (nm, [])) :
    expandLoop vars (fuel + 1) ('$' :: l) = ((varGet vars ⟨nm⟩).getD "").data := by
  show (if '$' = '$' then
      match matchVar l with
      | some (name, r') => ((varGet vars ⟨name⟩).getD "").data ++ expandLoop vars fuel r'
      | none => '$' :: expandLoop vars fuel l
    else '$' :: expandLoop vars fuel l) = _
  rw [if_pos rfl, hmv]
  show ((varGet vars ⟨nm⟩).getD "").data ++ expandLoop vars fuel [] = _
  rw [expandLoop_fuel_nil]
  simp

theorem matchVar_whole_name {c : Char} {rest : List Char}
    (hstart : isNameStart c = true) (hall : (c :: rest).all isNameChar = true) :
    matchVar (c :: rest) = some (c :: rest, []) := by
  have hne : c ≠ '{' := by
    intro hc
    rw [hc] at hstart
    exact absurd hstart (by decide)
  show (if c = '{' then _ else if isNameStart c then
      some ((c :: rest).takeWhile isNameChar, (c :: rest).dropWhile isNameChar)
    else none) = _
  rw [if_neg hne, if_pos hstart, takeWhile_all_eq_self hall, dropWhile_all_eq_nil hall]

theorem expand_dollar_name (vars : VarMap) (n : String) (h : isVarNameB n = true) :
    expandVars vars ("$" ++ n) = (varGet vars n).getD "" := by
  obtain ⟨nd⟩ := n
  match nd with
  | [] => exact absurd h (by simp [isVarNameB])
  | c :: rest =>
    unfold isVarNameB at h
    simp only [Bool.and_eq_true] at h
    obtain ⟨hstart, hall⟩ := h
    show (⟨expandLoop vars ('$' :: c :: rest).length ('$' :: c :: rest)⟩ : String) = _
    simp only [List.length_cons]
    rw [expandLoop_dollar_name vars _ (matchVar_whole_name hstart hall)]

/-- C6: variable expansion replaces a dollar-prefixed name with the
stored value when bound and the empty string when unbound, never fails,
and is single-pass: the replacement text is inserted verbatim and not
re-scanned (the fourth conjunct shows a stored value containing a
dollar reference surviving expansion unexpanded), on both the bare and
braced reference forms. -/
theorem claim6_expandVars :
    (∀ (vars : VarMap) (n : String), isVarNameB n = true →
        expandVars vars ("$" ++ n) = (varGet vars n).getD "") ∧
      expandVars [("x", "5")] "ip.$x.net" = "ip.5.net" ∧
      expandVars [] "$undefined" = "" ∧
      expandVars [("a", "$b"), ("b", "x")] "$a" = "$b" ∧
      expandVars [("x", "5")] "${x}.y" = "5.y" ∧
      expandVars [("x", "5")] "$\x7bx" = "$\x7bx" :=
  ⟨expand_dollar_name, by decide, by decide, by decide, by decide, by decide⟩

/-- Witness for C6's general conjunct at a concrete bound variable. -/
theorem claim6_expandVars_witness :
    expandVars [("q", "7")] "$q" = "7" :=
  (claim6_expandVars.1 [("q", "7")] "q" (by decide)).trans rfl

/-- An oracle with no modules at all: every lookup fails and (vacuously)
every run reports nothing.  Used for concrete pipelines that never reach
a module invocation. -/
def emptyOracle : ModOracle :=
  ⟨fun _ => none, fun _ _ => .ok none⟩

/-- Is the current `output` entry of a result a mapping? (the type
assertion `result["output"].(map[string]interface{})` of the select
stage). -/
def isMapOutput (r : RMap) : Bool :=
  match mapGet r "output" with
  | some (.map _) => true
  | _ => false

/-- C7: a `select` stage on a result whose `output` is not a mapping (or
that has no `output` at all) leaves the entire result untouched, every
other field included; in particular the end-to-end pipeline
`[1 2 3] | select foo` renders the head's synthesized result unchanged,
with the list-valued output intact. -/
theorem claim7_select_noop_nonmapping :
    (∀ (r : RMap) (args : List String),
        isMapOutput r = false → selectStageApply r args = r) ∧
      execPipeline [] emptyOracle "[1 2 3] | select foo" =
        .rendered [("output", .list [.str "1", .str "2", .str "3"]),
                   ("status", .str "success")] := by
  constructor
  · intro r args h
    unfold selectStageApply
    unfold isMapOutput at h
    split
    · rename_i m heq
      rw [heq] at h
      simp at h
    · rfl
  · rfl

/-- Witness for C7's general conjunct: a result with a list-valued
output is untouched by select. -/
theorem claim7_select_noop_nonmapping_witness :
    selectStageApply [("output", Value.list [Value.str "1"])] ["foo"] =
      [("output", Value.list [Value.str "1"])] :=
  claim7_select_noop_nonmapping.1 [("output", Value.list [Value.str "1"])] ["foo"] rfl

/-- C2 counterexample: a forloop whose single iteration fails (the body
names a module that does not exist, so `executeCommand` reports an
error — modelled by an always-failing executor) returns with the loop
variable still bound to the in-flight value: the early
`return true, err` at src/main.go line 601 skips the
`delete(s.vars, varName)` at line 606, so the binding is NOT absent
after an error-aborted loop. -/
theorem claim2_loopvar_error_counterexample :
    handleForLoopCore (fun v _ => (v, some "file does not exist")) [] "0..0" "i" "nosuchmodule" =
        some ([("i", "0")], some "file does not exist") ∧
      varGet [("i", "0")] "i" = some "0" := by
  constructor <;> rfl

/-- C2 amended: when a forloop or foreach run finishes without error the
loop variable binding is absent from the store; when a sub-command error
aborts the loop the handler returns at once and the binding remains.
(A forloop run that returns at all is `some (store, report)`; the `none`
runs — a diverging range loop — never finish, so the claim does not
speak about them.) -/
theorem claim2_loopvar_removed_when_no_error :
    (∀ (exec : CmdExec) (vars : VarMap) (rangeExpr varName body : String)
        (vmap : VarMap) (errRep : Option String),
        handleForLoopCore exec vars rangeExpr varName body = some (vmap, errRep) →
        errRep = none → varGet vmap varName = none) ∧
      (∀ (exec : CmdExec) (vars : VarMap) (listRaw varName body : String),
        (handleForeachCore exec vars listRaw varName body).2 = none →
        varGet (handleForeachCore exec vars listRaw varName body).1 varName = none) := by
  have hloop : ∀ (exec : CmdExec) (vars : VarMap) (varName : String)
      (values cmds : List String),
      (runLoop exec vars varName values cmds).2 = none →
      varGet (runLoop exec vars varName values cmds).1 varName = none := by
    intro exec vars varName values cmds h
    rcases hiter : runIterations exec varName cmds vars values with ⟨v, e⟩
    unfold runLoop at h ⊢
    rw [hiter] at h ⊢
    cases e with
    | some err => simp at h
    | none => exact varGet_varDelete v varName
  constructor
  · intro exec vars rangeExpr varName body vmap errRep hsome herr
    unfold handleForLoopCore at hsome
    rcases hpr : parseRangeValues rangeExpr with e | values
    · rw [hpr] at hsome
      injection hsome with hpair
      injection hpair with h1 h2
      rw [← h2] at herr
      cases herr
    · rw [hpr] at hsome
      injection hsome with hpair
      have h2 := congrArg Prod.snd hpair
      have h1 := congrArg Prod.fst hpair
      simp only at h1 h2
      rw [← h1]
      rw [← h2] at herr
      exact hloop _ _ _ _ _ herr
    · rw [hpr] at hsome
      cases hsome
  · intro exec vars listRaw varName body h
    unfold handleForeachCore at h ⊢
    exact hloop _ _ _ _ _ h

/-- Witness for C2's amended theorem: an error-free forloop and an
error-free foreach both leave their loop variable unbound, even when it
was bound before the loop. -/
theorem claim2_loopvar_removed_when_no_error_witness :
    handleForLoopCore (fun v _ => (v, none)) [("i", "old")] "0..1" "i" "cmd" = some ([], none) ∧
      varGet ([] : VarMap) "i" = none ∧
      varGet (handleForeachCore (fun v _ => (v, none)) [] "a|b" "x" "cmd").1 "x" = none :=
  ⟨rfl,
   claim2_loopvar_removed_when_no_error.1 (fun v _ => (v, none)) [("i", "old")] "0..1" "i" "cmd"
     [] none rfl rfl,
   claim2_loopvar_removed_when_no_error.2 (fun v _ => (v, none)) [] "a|b" "x" "cmd" rfl⟩

theorem buildUpN_eq (n : Nat) : ∀ (a : Int),
    buildUpN n a = (List.range n).map (fun (k : Nat) => toString (a + (k : Int))) := by
  induction n with
  | zero => intro a; rfl
  | succ m ih =>
    intro a
    rw [List.range_succ_eq_map, List.map_cons, List.map_map]
    show toString a :: buildUpN m (a + 1) = _
    congr 1
    · simp
    · rw [ih (a + 1)]
      apply List.map_congr_left
      intro k _
      simp only [Function.comp_apply]
      congr 1
      omega

theorem buildDownN_eq (n : Nat) : ∀ (a : Int),
    buildDownN n a = (List.range n).map (fun (k : Nat) => toString (a - (k : Int))) := by
  induction n with
  | zero => intro a; rfl
  | succ m ih =>
    intro a
    rw [List.range_succ_eq_map, List.map_cons, List.map_map]
    show toString a :: buildDownN m (a - 1) = _
    congr 1
    · simp
    · rw [ih (a - 1)]
      apply List.map_congr_left
      intro k _
      simp only [Function.comp_apply]
      congr 1
      omega

theorem wrapInc_bounds {i : Int} (h1 : -9223372036854775808 ≤ i)
    (h2 : i ≤ 9223372036854775807) :
    -9223372036854775808 ≤ wrapInc i ∧ wrapInc i ≤ 9223372036854775807 := by
  unfold wrapInc
  split
  · constructor <;> norm_num
  · rename_i hne
    omega

theorem wrapDec_bounds {i : Int} (h1 : -9223372036854775808 ≤ i)
    (h2 : i ≤ 9223372036854775807) :
    -9223372036854775808 ≤ wrapDec i ∧ wrapDec i ≤ 9223372036854775807 := by
  unfold wrapDec
  split
  · constructor <;> norm_num
  · rename_i hne
    omega

/-- With the end below the largest int64 the ascending loop counter never
wraps, and with fuel at least the remaining iteration count the loop
terminates with exactly the counted sequence. -/
theorem loopUpF_term : ∀ (fuel : Nat) (i b : Int), b < 9223372036854775807 →
    (b + 1 - i).toNat ≤ fuel →
    loopUpF fuel i b = some (buildUpN (b + 1 - i).toNat i) := by
  intro fuel
  induction fuel with
  | zero =>
    intro i b hb hk
    have hz : (b + 1 - i).toNat = 0 := by omega
    have hib : ¬ i ≤ b := by omega
    show (if i ≤ b then none else some []) = _
    rw [if_neg hib, hz]
    rfl
  | succ f ih =>
    intro i b hb hk
    by_cases hib : i ≤ b
    · have hwrap : wrapInc i = i + 1 := by
        unfold wrapInc
        rw [if_neg (by omega)]
      show (if i ≤ b then (loopUpF f (wrapInc i) b).map (fun vs => toString i :: vs)
        else some []) = _
      rw [if_pos hib, hwrap, ih (i + 1) b hb (by omega)]
      have hsucc : (b + 1 - i).toNat = (b + 1 - (i + 1)).toNat + 1 := by omega
      rw [hsucc]
      rfl
    · have hz : (b + 1 - i).toNat = 0 := by omega
      show (if i ≤ b then (loopUpF f (wrapInc i) b).map (fun vs => toString i :: vs)
        else some []) = _
      rw [if_neg hib, hz]
      rfl

/-- With the end above the smallest int64 the descending loop terminates
with exactly the counted sequence. -/
theorem loopDownF_term : ∀ (fuel : Nat) (i b : Int), -9223372036854775808 < b →
    (i + 1 - b).toNat ≤ fuel →
    loopDownF fuel i b = some (buildDownN (i + 1 - b).toNat i) := by
  intro fuel
  induction fuel with
  | zero =>
    intro i b hb hk
    have hz : (i + 1 - b).toNat = 0 := by omega
    have hib : ¬ b ≤ i := by omega
    show (if b ≤ i then none else some []) = _
    rw [if_neg hib, hz]
    rfl
  | succ f ih =>
    intro i b hb hk
    by_cases hib : b ≤ i
    · have hwrap : wrapDec i = i - 1 := by
        unfold wrapDec
        rw [if_neg (by omega)]
      show (if b ≤ i then (loopDownF f (wrapDec i) b).map (fun vs => toString i :: vs)
        else some []) = _
      rw [if_pos hib, hwrap, ih (i - 1) b hb (by omega)]
      have hsucc : (i + 1 - b).toNat = (i - 1 + 1 - b).toNat + 1 := by omega
      rw [hsucc]
      rfl
    · have hz : (i + 1 - b).toNat = 0 := by omega
      show (if b ≤ i then (loopDownF f (wrapDec i) b).map (fun vs => toString i :: vs)
        else some []) = _
      rw [if_neg hib, hz]
      rfl

/-- With the end equal to the largest int64, every int64 value of the
counter satisfies the loop condition and the wrapped increment keeps it
in range, so no amount of fuel finds the loop finished. -/
theorem loopUpF_max_none : ∀ (fuel : Nat) (i : Int), -9223372036854775808 ≤ i →
    i ≤ 9223372036854775807 →
    loopUpF fuel i 9223372036854775807 = none := by
  intro fuel
  induction fuel with
  | zero =>
    intro i h1 h2
    show (if i ≤ 9223372036854775807 then none else some []) = none
    rw [if_pos h2]
  | succ f ih =>
    intro i h1 h2
    show (if i ≤ 9223372036854775807 then
        (loopUpF f (wrapInc i) 9223372036854775807).map (fun vs => toString i :: vs)
      else some []) = none
    rw [if_pos h2]
    obtain ⟨hw1, hw2⟩ := wrapInc_bounds h1 h2
    rw [ih (wrapInc i) hw1 hw2]
    rfl

/-- With the end equal to the smallest int64 the descending loop never
finishes, symmetrically. -/
theorem loopDownF_min_none : ∀ (fuel : Nat) (i : Int), -9223372036854775808 ≤ i →
    i ≤ 9223372036854775807 →
    loopDownF fuel i (-9223372036854775808) = none := by
  intro fuel
  induction fuel with
  | zero =>
    intro i h1 h2
    show (if -9223372036854775808 ≤ i then none else some []) = none
    rw [if_pos h1]
  | succ f ih =>
    intro i h1 h2
    show (if -9223372036854775808 ≤ i then
        (loopDownF f (wrapDec i) (-9223372036854775808)).map (fun vs => toString i :: vs)
      else some []) = none
    rw [if_pos h1]
    obtain ⟨hw1, hw2⟩ := wrapDec_bounds h1 h2
    rw [ih (wrapDec i) hw1 hw2]
    rfl

/-- On a range error the loop handler returns the error with the store
untouched, before any iteration. -/
theorem handleForLoopCore_err (exec : CmdExec) (vars : VarMap) (s varName body e : String)
    (h : parseRangeValues s = .err e) :
    handleForLoopCore exec vars s varName body = some (vars, some e) := by
  unfold handleForLoopCore
  rw [h]

/-- On a diverging range the loop handler never returns; the loop body
is never reached. -/
theorem handleForLoopCore_hang (exec : CmdExec) (vars : VarMap) (s varName body : String)
    (h : parseRangeValues s = .hang) :
    handleForLoopCore exec vars s varName body = none := by
  unfold handleForLoopCore
  rw [h]

/-- C4 counterexample: the claim's `A..B` form does not always generate
the inclusive sequence.  Both int64 extremes are accepted by
`strconv.Atoi`, and at ascending end 9223372036854775807 (or descending
end -9223372036854775808) the loop counter wraps instead of leaving the
loop, the range loop never terminates, and no sequence at all is
produced — `handleForLoop` never returns. -/
theorem claim4_int64_wrap_counterexample :
    goAtoi "9223372036854775807" = some 9223372036854775807 ∧
      goAtoi "-9223372036854775808" = some (-9223372036854775808) ∧
      buildUp 0 9223372036854775807 = none ∧
      buildDown 0 (-9223372036854775808) = none ∧
      parseRangeValues "0..9223372036854775807" = .hang ∧
      parseRangeValues "0..-9223372036854775808" = .hang ∧
      handleForLoopCore (fun v _ => (v, none)) [] "0..9223372036854775807" "i" "cmd" = none := by
  have hup : buildUp 0 9223372036854775807 = none :=
    loopUpF_max_none 18446744073709551616 0 (by norm_num) (by norm_num)
  have hdown : buildDown 0 (-9223372036854775808) = none :=
    loopDownF_min_none 18446744073709551616 0 (by norm_num) (by norm_num)
  have hhangUp : parseRangeValues "0..9223372036854775807" = .hang := by
    have hsplit : splitOnceDots ("0..9223372036854775807" : String).data =
        some ("0".data, "9223372036854775807".data) := rfl
    have ha : goAtoi ⟨"0".data⟩ = some 0 := rfl
    have hb : goAtoi ⟨"9223372036854775807".data⟩ = some 9223372036854775807 := by decide
    simp only [parseRangeValues, hsplit, ha, hb]
    rw [if_pos (by norm_num), hup]
  have hhangDown : parseRangeValues "0..-9223372036854775808" = .hang := by
    have hsplit : splitOnceDots ("0..-9223372036854775808" : String).data =
        some ("0".data, "-9223372036854775808".data) := rfl
    have ha : goAtoi ⟨"0".data⟩ = some 0 := rfl
    have hb : goAtoi ⟨"-9223372036854775808".data⟩ = some (-9223372036854775808) := by decide
    simp only [parseRangeValues, hsplit, ha, hb]
    rw [if_neg (by norm_num), hdown]
  exact ⟨by decide, by decide, hup, hdown, hhangUp, hhangDown,
    handleForLoopCore_hang _ _ _ _ _ hhangUp⟩

/-- C4 amended: range expansion of forloop under Go int64 loop
arithmetic.  The dotted form with two parseable integers runs the
ascending counted loop when the start does not exceed the end and the
descending one otherwise; those loops terminate with exactly the
inclusive arithmetic sequences whenever the ascending end is below the
largest int64, respectively the descending end above the smallest, and
never terminate at those two extremes (the counter wraps); a single
integer produces `0 .. N-1`; a comma form produces the trimmed items
verbatim; every other expression yields the invalid-range error, and on
a range error the loop handler returns it with the variable store
untouched, before any iteration; a diverging range never reaches the
loop body either. -/
theorem claim4_forloop_ranges :
    (∀ (s : String) (p q : List Char) (a b : Int) (vs : List String),
        splitOnceDots s.data = some (p, q) →
        goAtoi ⟨p⟩ = some a → goAtoi ⟨q⟩ = some b →
        a ≤ b → buildUp a b = some vs → parseRangeValues s = .values vs) ∧
    (∀ (s : String) (p q : List Char) (a b : Int) (vs : List String),
        splitOnceDots s.data = some (p, q) →
        goAtoi ⟨p⟩ = some a → goAtoi ⟨q⟩ = some b →
        ¬ a ≤ b → buildDown a b = some vs → parseRangeValues s = .values vs) ∧
    (∀ a b : Int, -9223372036854775808 ≤ a → b < 9223372036854775807 →
        buildUp a b =
          some ((List.range (b + 1 - a).toNat).map (fun (k : Nat) => toString (a + (k : Int))))) ∧
    (∀ a b : Int, a ≤ 9223372036854775807 → -9223372036854775808 < b →
        buildDown a b =
          some ((List.range (a + 1 - b).toNat).map (fun (k : Nat) => toString (a - (k : Int))))) ∧
    (∀ a : Int, -9223372036854775808 ≤ a → a ≤ 9223372036854775807 →
        buildUp a 9223372036854775807 = none) ∧
    (∀ a : Int, -9223372036854775808 ≤ a → a ≤ 9223372036854775807 →
        buildDown a (-9223372036854775808) = none) ∧
    (∀ (s : String) (n : Int), splitOnceDots s.data = none →
        containsChar s.data ',' = false → goAtoi s = some n →
        parseRangeValues s = .values ((List.range n.toNat).map (fun (k : Nat) => toString ((k : Int))))) ∧
    (∀ (s : String), splitOnceDots s.data = none → containsChar s.data ',' = true →
        parseRangeValues s = .values ((splitAllChar ',' s.data).map (fun l => goTrimSpace ⟨l⟩))) ∧
    (∀ (s : String) (p q : List Char), splitOnceDots s.data = some (p, q) →
        goAtoi ⟨p⟩ = none ∨ goAtoi ⟨q⟩ = none →
        parseRangeValues s = .err ("invalid range: " ++ s)) ∧
    (∀ (s : String), splitOnceDots s.data = none → containsChar s.data ',' = false →
        goAtoi s = none → parseRangeValues s = .err ("invalid range expression: " ++ s)) ∧
    (∀ (exec : CmdExec) (vars : VarMap) (s varName body e : String),
        parseRangeValues s = .err e →
        handleForLoopCore exec vars s varName body = some (vars, some e)) ∧
    (∀ (exec : CmdExec) (vars : VarMap) (s varName body : String),
        parseRangeValues s = .hang →
        handleForLoopCore exec vars s varName body = none) := by
  refine ⟨?_, ?_, ?_, ?_, ?_, ?_, ?_, ?_, ?_, ?_, ?_, ?_⟩
  · intro s p q a b vs h1 h2 h3 hab hbu
    simp only [parseRangeValues, h1, h2, h3]
    rw [if_pos hab, hbu]
  · intro s p q a b vs h1 h2 h3 hab hbd
    simp only [parseRangeValues, h1, h2, h3]
    rw [if_neg hab, hbd]
  · intro a b ha hb
    unfold buildUp
    rw [loopUpF_term 18446744073709551616 a b hb (by omega), buildUpN_eq]
  · intro a b ha hb
    unfold buildDown
    rw [loopDownF_term 18446744073709551616 a b hb (by omega), buildDownN_eq]
  · intro a h1 h2
    exact loopUpF_max_none 18446744073709551616 a h1 h2
  · intro a h1 h2
    exact loopDownF_min_none 18446744073709551616 a h1 h2
  · intro s n h1 h2 h3
    simp only [parseRangeValues, h1, h2, h3]
    rw [if_neg (by simp)]
    unfold buildCount
    rw [buildUpN_eq]
    simp
  · intro s h1 h2
    simp only [parseRangeValues, h1, h2, if_true]
  · intro s p q h1 hor
    simp only [parseRangeValues, h1]
    rcases hor with hp | hq
    · rw [hp]
    · rw [hq]
      rcases goAtoi ⟨p⟩ with _ | a <;> rfl
  · intro s h1 h2 h3
    simp only [parseRangeValues, h1, h2, h3]
    rw [if_neg (by simp)]
  · exact handleForLoopCore_err
  · exact handleForLoopCore_hang

/-- Witness for C4 at the spec's concrete ranges, the invalid range
leaving a non-empty store untouched, and a diverging ascending end. -/
theorem claim4_forloop_ranges_witness :
    parseRangeValues "0..3" = .values ["0", "1", "2", "3"] ∧
      parseRangeValues "3..0" = .values ["3", "2", "1", "0"] ∧
      parseRangeValues "3" = .values ["0", "1", "2"] ∧
      parseRangeValues "a, b" = .values ["a", "b"] ∧
      buildUp 5 9223372036854775807 = none ∧
      handleForLoopCore (fun v _ => (v, none)) [("k", "1")] "x..y" "i" "cmd" =
        some ([("k", "1")], some "invalid range: x..y") :=
  ⟨claim4_forloop_ranges.1 "0..3" "0".data "3".data 0 3 ["0", "1", "2", "3"]
     rfl rfl rfl (by decide) rfl,
   claim4_forloop_ranges.2.1 "3..0" "3".data "0".data 3 0 ["3", "2", "1", "0"]
     rfl rfl rfl (by decide) rfl,
   claim4_forloop_ranges.2.2.2.2.2.2.1 "3" 3 rfl rfl rfl,
   claim4_forloop_ranges.2.2.2.2.2.2.2.1 "a, b" rfl rfl,
   claim4_forloop_ranges.2.2.2.2.1 5 (by decide) (by decide),
   claim4_forloop_ranges.2.2.2.2.2.2.2.2.2.2.1 (fun v _ => (v, none)) [("k", "1")]
     "x..y" "i" "cmd" "invalid range: x..y" rfl⟩

/-- The comma-splitting select implemented by the `ExecutePipeline`
variant in src/unnamed/part_006 (and described by the spec: argument
tokens joined, then comma-split into field names): join the stage's
argument tokens with spaces and trim; an empty or `*` argument keeps
everything; otherwise split on commas, trim each field, drop blanks,
and when any fields remain build the narrowed mapping from scratch,
silently skipping missing keys. -/
def selectCommaVariant (data : RMap) (args : List String) : RMap :=
  let fullArg := goTrimSpace (String.intercalate " " args)
  if fullArg = "" || fullArg = "*" then data
  else
    let fields := ((splitAllChar ',' fullArg.data).map (fun l => goTrimSpace ⟨l⟩)).filter
      (fun t => t ≠ "")
    if fields.isEmpty then data
    else fields.foldl (fun acc f =>
      match mapGet data f with
      | some v => mapSet acc f v
      | none => acc) []

/-- C1: evaluation of both select implementations at the claim's inputs.
The executed path (src/main.go line 393 calling
`trex_utils.SelectFields` on the raw argument tokens) does NOT
comma-split: the stage `select a,c` tokenizes into the single argument
token `a,c`, which is looked up as one key and silently misses, so the
claim's expected narrowing to the keys a and c does not happen — the
result is the empty mapping.  (`select z` does yield the empty mapping,
as claimed.)  The comma-splitting behavior the claim describes is
exactly what the repository's own variant `selectCommaVariant`
produces. -/
theorem claim1_select_no_comma_split :
    goParseCommand "select a,c" = ["select", "a,c"] ∧
      selectStageApply
          [("output", .map [("a", .str "1"), ("b", .str "2"), ("c", .str "3")]),
           ("status", .str "success")] ["a,c"] =
        [("output", .map []), ("status", .str "success")] ∧
      SelectFields [("a", .str "1"), ("b", .str "2"), ("c", .str "3")] ["a,c"] = [] ∧
      SelectFields [("a", .str "1"), ("b", .str "2"), ("c", .str "3")] ["z"] = [] ∧
      selectCommaVariant [("a", .str "1"), ("b", .str "2"), ("c", .str "3")] ["a,c"] =
        [("a", .str "1"), ("c", .str "3")] :=
  ⟨rfl, rfl, rfl, rfl, rfl⟩

theorem parseCommandAux_ne_nil :
    ∀ (l : List Char) (total pos : Nat) (cur : List Char) (inQ : Bool),
      [] ∉ parseCommandAux total l pos cur inQ := by
  intro l
  induction l with
  | nil =>
    intro total pos cur inQ h
    simp [parseCommandAux] at h
  | cons ch rest ih =>
    intro total pos cur inQ h
    rw [parseCommandAux] at h
    split at h
    next cur' inQ' emitted heq =>
      simp only [List.mem_append] at h
      rcases h with (hem | htr) | hrec
      · -- [] came from the emitted tokens
        split at heq
        · injection heq with h1 h2
          injection h2 with h2a h2b
          subst h2b
          simp at hem
        · split at heq
          · split at heq
            · rename_i hlen
              injection heq with h1 h2
              injection h2 with h2a h2b
              subst h2b
              simp only [List.mem_singleton] at hem
              rw [← hem] at hlen
              simp at hlen
            · injection heq with h1 h2
              injection h2 with h2a h2b
              subst h2b
              simp at hem
          · injection heq with h1 h2
            injection h2 with h2a h2b
            subst h2b
            simp at hem
      · -- [] came from the trailing token
        split at htr
        · rename_i hlen
          simp only [List.mem_singleton] at htr
          rw [← htr] at hlen
          simp at hlen
        · simp at htr
      · exact ih total _ cur' inQ' hrec

/-- C3: evaluation of the tokenizer.  The quoted-grouping examples and
the empty/collapsing examples behave as claimed, and no input ever
produces an empty token; but the "always emit a non-empty trailing
buffer" part fails: the end-of-line check compares the byte offset of
the current rune with the byte length of the line, so a line whose
final character is multi-byte (here a two-byte character) never passes
it and its pending token is silently dropped — the claim would require
the last conjunct to produce a one-token list. -/
theorem claim3_tokenizer_eval :
    goParseCommand "a \"b c\" d" = ["a", "b c", "d"] ∧
      goParseCommand "" = [] ∧
      goParseCommand "  a   b  " = ["a", "b"] ∧
      (∀ s : String, (goParseCommand s).all (fun t => !(t == "")) = true) ∧
      goParseCommand "é" = [] := by
  refine ⟨by decide, by decide, by decide, ?_, by decide⟩
  intro s
  rw [List.all_eq_true]
  intro t ht
  unfold goParseCommand at ht
  rw [List.mem_map] at ht
  obtain ⟨l, hl, hmk⟩ := ht
  have hne : l ≠ [] := by
    intro hnil
    rw [hnil] at hl
    exact parseCommandAux_ne_nil s.data _ 0 [] false hl
  subst hmk
  have hs : (⟨l⟩ : String) ≠ "" := by
    intro hcon
    apply hne
    have hd : (⟨l⟩ : String).data = ("" : String).data := by rw [hcon]
    simpa using hd
  simp [hs]

/-- A pipe stage that never invokes a module: blank (skipped) or headed
by one of the display directives. -/
def isDirectiveStage (pipe : String) : Bool :=
  match goParseCommand (goTrimSpace pipe) with
  | [] => true
  | op :: _ => op == "select" || op == "pp" || op == "tt"

/-- C5: when the stage loop reaches a stage whose first token is not
`select`, `pp` or `tt` and does not resolve to a module, the whole
pipeline fails with the unknown-operator error naming that token —
whatever stages follow (they are never evaluated: the conclusion does
not depend on `post`) and whatever directive stages preceded.  A
`failed` outcome is the early error return of `executePipeline`, taken
before `printResult`, so nothing is rendered.  The second conjunct runs
a complete three-stage pipeline against an oracle with no modules: the
literal head succeeds, the bad second stage aborts, and the `pp` third
stage is never reached. -/
theorem claim5_unknown_stage_aborts :
    (∀ (o : ModOracle) (r : RMap) (pres : List String) (bad : String)
        (post : List String) (op : String) (args : List String),
        pres.all isDirectiveStage = true →
        goParseCommand (goTrimSpace bad) = op :: args →
        ((op == "select") || (op == "pp") || (op == "tt")) = false →
        o.find op = none →
        procStages o r (pres ++ bad :: post) =
          .failed ("unknown pipeline operator or module: " ++ op)) ∧
      execPipeline [] emptyOracle "5 | frobnicate | pp" =
        .failed "unknown pipeline operator or module: frobnicate" := by
  constructor
  · intro o r pres bad post op args hpres hbad hop hfind
    induction pres generalizing r with
    | nil =>
      show procStages o r (bad :: post) = _
      unfold procStages
      have hb : goTrimSpace bad ≠ "" := by
        intro hcon
        rw [hcon] at hbad
        simp [goParseCommand, parseCommandAux] at hbad
      rw [if_neg hb, hbad]
      have h1 : op ≠ "select" := by intro hx; rw [hx] at hop; simp at hop
      have h2 : op ≠ "pp" := by intro hx; rw [hx] at hop; simp at hop
      have h3 : op ≠ "tt" := by intro hx; rw [hx] at hop; simp at hop
      show (if op = "select" then procStages o (selectStageApply r args) post
        else if op = "pp" then procStages o (mapSet r "__pretty_print" (Value.boolV true)) post
        else if op = "tt" then procStages o (mapSet r "__table_print" (Value.boolV true)) post
        else match o.find op with
          | none => PipeOutcome.failed ("unknown pipeline operator or module: " ++ op)
          | some _ =>
            let callArgs := args ++ projectOutput (mapGet r "output")
            match executeModuleM o (op :: args) callArgs with
            | Except.error e => PipeOutcome.failed e
            | Except.ok none => PipeOutcome.silent
            | Except.ok (some r') => procStages o r' post) = _
      rw [if_neg h1, if_neg h2, if_neg h3, hfind]
    | cons st rest ih =>
      simp only [List.all_cons, Bool.and_eq_true] at hpres
      obtain ⟨hst, hrest⟩ := hpres
      simp only [List.cons_append]
      unfold procStages
      by_cases hblank : goTrimSpace st = ""
      · rw [if_pos hblank]
        exact ih _ hrest
      · rw [if_neg hblank]
        unfold isDirectiveStage at hst
        cases hparse : goParseCommand (goTrimSpace st) with
        | nil =>
          exact ih _ hrest
        | cons op' args' =>
          rw [hparse] at hst
          simp only [Bool.or_eq_true, beq_iff_eq] at hst
          rcases hst with (hsel | hpp) | htt
          · subst hsel
            exact ih _ hrest
          · subst hpp
            exact ih _ hrest
          · subst htt
            exact ih _ hrest
  · rfl

/-- Witness for C5's stage-loop conjunct: directive stages before the
unknown stage, a later stage after it, an oracle with no modules. -/
theorem claim5_unknown_stage_aborts_witness :
    procStages emptyOracle [("output", Value.str "5")] ["pp", " ", "frobnicate zz", "tt"] =
      .failed "unknown pipeline operator or module: frobnicate" :=
  claim5_unknown_stage_aborts.1 emptyOracle [("output", Value.str "5")]
    ["pp", " "] "frobnicate zz" ["tt"] "frobnicate" ["zz"] rfl rfl rfl rfl

/-- Has the line been claimed by one of the three assignment forms of
`executeCommand` (only examined when the tokenization is non-empty)? -/
def assignClaimB (line : String) : Bool :=
  match goParseCommand line with
  | [] => false
  | p0 :: rest =>
    ((p0 = "set" || p0 = "let") && rest.length + 1 ≥ 3 : Bool) ||
      (assignReMatch line).isSome ||
      (startsWithL ['$'] p0.data && rest.length + 1 ≥ 2)

theorem startsWith_foreach_not_forloop {l : List Char}
    (h : startsWithL "foreach".data l = true) : startsWithL "forloop".data l = false := by
  match l with
  | [] => simp [startsWithL] at h
  | c0 :: l1 =>
    match l1 with
    | [] => exact absurd h (by simp [startsWithL])
    | c1 :: l2 =>
      match l2 with
      | [] => exact absurd h (by simp [startsWithL])
      | c2 :: l3 =>
        match l3 with
        | [] => exact absurd h (by simp [startsWithL])
        | c3 :: l4 =>
          show (decide ('f' = c0) && (decide ('o' = c1) && (decide ('r' = c2) &&
            (decide ('l' = c3) && startsWithL ['o', 'o', 'p'] l4)))) = false
          have h3 : 'e' = c3 := by
            have := h
            simp only [show "foreach".data = ['f', 'o', 'r', 'e', 'a', 'c', 'h'] from rfl,
              startsWithL, Bool.and_eq_true, decide_eq_true_eq] at this
            exact this.2.2.2.1
          rw [← h3]
          simp

theorem forloopMatch_none_of_foreachMatch {line : String} {m : String × String × String}
    (h : foreachMatch line = some m) : forloopMatch line = none := by
  unfold foreachMatch foreachMatchAt at h
  unfold forloopMatch forloopMatchAt
  split at h
  · rename_i hfe
    rw [startsWith_foreach_not_forloop hfe]
    simp
  · cases h

/-- C8 counterexample: the line `foreach =|= as $x do {b}` matches the
foreach pattern — with a pipe character inside its captured list
expression — yet `executeCommand` hands it to the assignment-shorthand
branch (the assignment regexp also matches it, with name `foreach`, and
is tried first), so it is not handled by the Loop Evaluator as the
claim, read over every foreach-matching line, requires. -/
theorem claim8_foreach_assignment_counterexample :
    foreachMatch "foreach =|= as $x do {b}" = some ("=|=", "x", "b") ∧
      containsChar ("=|=" : String).data '|' = true ∧
      executeCommandDispatch false "foreach =|= as $x do {b}" =
        .assignEq "foreach" "|= as $x do {b}" := by
  refine ⟨by decide, by decide, by decide⟩

/-- C8 amended: a line matching the foreach pattern that is not first
claimed by the existing-file check or one of the assignment forms is
handled by the Loop Evaluator — even when its list expression contains
a pipe character, because foreach matching precedes the pipe check
(`HasPipe`) in the dispatcher; and a pipe-delimited list expression is
split on the pipe character with each item trimmed and stripped of one
matching pair of surrounding quotes, in order.  The concrete conjuncts
run the claim's own example. -/
theorem claim8_foreach_before_pipe :
    (∀ (line le v b : String),
        foreachMatch line = some (le, v, b) →
        assignClaimB line = false →
        executeCommandDispatch false line = .foreachH le v b) ∧
      executeCommandDispatch false "foreach \"x\"|\"y\" as $x do {run}" =
        .foreachH "\"x\"|\"y\"" "x" "run" ∧
      containsChar ("foreach \"x\"|\"y\" as $x do {run}" : String).data '|' = true ∧
      foreachItems "\"x\"|\"y\"" = ["x", "y"] := by
  refine ⟨?_, by decide, by decide, by decide⟩
  intro line le v b hfe hassign
  unfold assignClaimB at hassign
  have hafter : dispatchAfterAssign line = .foreachH le v b := by
    unfold dispatchAfterAssign
    rw [forloopMatch_none_of_foreachMatch hfe, hfe]
  unfold executeCommandDispatch
  cases hparse : goParseCommand line with
  | nil => exact hafter
  | cons p0 rest =>
    rw [hparse] at hassign
    have h : (((p0 = "set" || p0 = "let") && rest.length + 1 ≥ 3 : Bool) ||
        (assignReMatch line).isSome ||
        (startsWithL ['$'] p0.data && rest.length + 1 ≥ 2 : Bool)) = false := hassign
    simp only [Bool.or_eq_false_iff] at h
    obtain ⟨⟨h1, h2⟩, h3⟩ := h
    show (if ((p0 = "set" || p0 = "let") && rest.length + 1 ≥ 3 : Bool) = true then
        Dispatch.assignSetLet
      else match assignReMatch line with
        | some (n, v') => Dispatch.assignEq n v'
        | none =>
          if (startsWithL ['$'] p0.data && rest.length + 1 ≥ 2 : Bool) = true then
            Dispatch.assignDollar
          else dispatchAfterAssign line) = _
    rw [if_neg (by rw [h1]; exact Bool.false_ne_true)]
    cases hre : assignReMatch line with
    | some nv =>
      rw [hre] at h2
      simp at h2
    | none =>
      rw [if_neg (by rw [h3]; exact Bool.false_ne_true)]
      exact hafter

/-- Witness for C8's amended dispatch conjunct at a second concrete
pipe-carrying foreach line. -/
theorem claim8_foreach_before_pipe_witness :
    executeCommandDispatch false "foreach a|b as $y do {cmd}" =
      .foreachH "a|b" "y" "cmd" :=
  claim8_foreach_before_pipe.1 "foreach a|b as $y do {cmd}" "a|b" "y" "cmd"
    (by decide) (by decide)

end TRex
